import Mathlib

/-!
Verification of the diacea spatial-relationship resolver
(`src/diacea/experiments.py`).

The Python source manipulates dictionary-shaped diagram elements
(rectangles, texts, arrows) with rational/real coordinates.  We embed the
elements as tagged variants with `ℚ` coordinates, and each resolver as an
executable Lean function.  `Option` models Python exceptions (`min` over an
empty sequence raises `ValueError`); `none` is an uncaught exception and
`some` a normal return.
-/

/-- A rectangle element: `{'type': 'rectangle', 'id': ..., 'x': ..., 'y': ...,
'width': ..., 'height': ...}`. -/
structure RectItem where
  id : String
  x : ℚ
  y : ℚ
  width : ℚ
  height : ℚ
deriving DecidableEq

/-- A text element: `{'type': 'text', 'id': ..., 'x': ..., 'y': ..., 'text': ...}`. -/
structure TextItem where
  id : String
  x : ℚ
  y : ℚ
  text : String
deriving DecidableEq

/-- An arrow element: `{'type': 'arrow', 'id': ..., 'points': [[sx, sy], [ex, ey]]}`. -/
structure ArrowItem where
  id : String
  sx : ℚ
  sy : ℚ
  ex : ℚ
  ey : ℚ
deriving DecidableEq

/-- An input element, tagged by its `'type'` field. -/
inductive Item where
  | rect : RectItem → Item
  | text : TextItem → Item
  | arrow : ArrowItem → Item
deriving DecidableEq

/-- An output record.  Python emits dicts whose key sets differ between the
algorithms; an `Option` field value of `none` models an absent key, and
`some s` a present key with value `s`. -/
structure RelOut where
  id : String
  rtype : String
  label : String
  parent : Option String
  srcId : Option String
  dstId : Option String
deriving DecidableEq

/-- The rectangles of the input, in input order (`[item for item in data if
item['type'] == 'rectangle']`). -/
def filterRects : List Item → List RectItem
  | [] => []
  | Item.rect r :: rest => r :: filterRects rest
  | _ :: rest => filterRects rest

/-- The texts of the input, in input order. -/
def filterTexts : List Item → List TextItem
  | [] => []
  | Item.text t :: rest => t :: filterTexts rest
  | _ :: rest => filterTexts rest

/-- The arrows of the input, in input order. -/
def filterArrows : List Item → List ArrowItem
  | [] => []
  | Item.arrow a :: rest => a :: filterArrows rest
  | _ :: rest => filterArrows rest

/-- `is_rectangle_inside(outer, inner)`: strict containment on all four
sides. -/
def isRectangleInside (outer inner : RectItem) : Bool :=
  decide (outer.x < inner.x) && decide (outer.y < inner.y) &&
    decide (outer.x + outer.width > inner.x + inner.width) &&
    decide (outer.y + outer.height > inner.y + inner.height)

/-- `_dist(rect, arrow)`: squared distance from a point to the rectangle
center, summed per axis. -/
def dist (r : RectItem) (px py : ℚ) : ℚ :=
  (r.x + r.width / 2 - px) ^ 2 + (r.y + r.height / 2 - py) ^ 2

/-- The candidate test of `find_nearest_rectangle`: boundary-inclusive point
membership `r['x'] <= point[0] <= r['x'] + r['width']` (and same for y). -/
def closedPointInside (r : RectItem) (px py : ℚ) : Bool :=
  decide (r.x ≤ px) && decide (px ≤ r.x + r.width) &&
    decide (r.y ≤ py) && decide (py ≤ r.y + r.height)

/-- The strict point-in-rectangle test used for label attachment:
`rect['x'] < text['x'] < rect['x'] + rect['width']` (and same for y). -/
def strictPointInside (r : RectItem) (px py : ℚ) : Bool :=
  decide (r.x < px) && decide (px < r.x + r.width) &&
    decide (r.y < py) && decide (py < r.y + r.height)

/-- Rectangle area `r['width'] * r['height']`. -/
def area (r : RectItem) : ℚ := r.width * r.height

/-- Python `min(l, key=f)`: the first element attaining the minimal key,
`none` when the list is empty (`ValueError`). -/
def minBy {α : Type} (f : α → ℚ) : List α → Option α
  | [] => none
  | x :: xs =>
    match minBy f xs with
    | none => some x
    | some m => if f x ≤ f m then some x else some m

/-- `find_nearest_rectangle(point, rectangles)`: rectangles containing the
point (boundary inclusive) are candidates; the smallest-area candidate wins,
with nearest-center fallback when there is no candidate. -/
def findNearestRectangle (px py : ℚ) (rects : List RectItem) : Option RectItem :=
  let candidates := rects.filter (fun r => closedPointInside r px py)
  if candidates.isEmpty then minBy (fun r => dist r px py) rects
  else minBy area candidates

/-- The first text (in list order) whose point is strictly inside the
rectangle; models the `for text in texts: ... break` label scans. -/
def firstContainedText (r : RectItem) : List TextItem → Option TextItem
  | [] => none
  | t :: ts => if strictPointInside r t.x t.y then some t else firstContainedText r ts

/-- `mapM` specialized to `Option`, modelling a loop whose body may raise. -/
def optionMapM {α β : Type} (f : α → Option β) : List α → Option (List β)
  | [] => some []
  | x :: xs =>
    match f x, optionMapM f xs with
    | some y, some ys => some (y :: ys)
    | _, _ => none

/-- The output record `convert_to_relative` builds for a rectangle: label from
the first strictly containing text, `'parent': ''` always. -/
def convertRecord (data : List Item) (r : RectItem) : RelOut :=
  ⟨r.id, "rectangle",
    ((firstContainedText r (filterTexts data)).map TextItem.text).getD "",
    some "", none, none⟩

/-- The output record `convert_to_relative` builds for an arrow: each endpoint
resolves to the rectangle of minimal `_dist`, with no containment test;
`none` when there is no rectangle (`ValueError` from `min`). -/
def convertArrow (data : List Item) (a : ArrowItem) : Option RelOut := do
  let fromElement ← minBy (fun r => dist r a.sx a.sy) (filterRects data)
  let toElement ← minBy (fun r => dist r a.ex a.ey) (filterRects data)
  pure ⟨a.id, "arrow", "", none, some fromElement.id, some toElement.id⟩

/-- The main loop of `convert_to_relative` over the input items; text items
produce no output record. -/
def convertAux (data : List Item) : List Item → Option (List RelOut)
  | [] => some []
  | Item.rect r :: rest => do
    let tail ← convertAux data rest
    pure (convertRecord data r :: tail)
  | Item.text _ :: rest => convertAux data rest
  | Item.arrow a :: rest => do
    let rec1 ← convertArrow data a
    let tail ← convertAux data rest
    pure (rec1 :: tail)

/-- `convert_to_relative(absolute_data)`. -/
def convertToRelative (data : List Item) : Option (List RelOut) :=
  convertAux data data

/-- Whether `q` qualifies as a containment candidate for `rect` in the parent
scan: distinct id and strict containment. -/
def isCand (rect q : RectItem) : Bool :=
  (q.id != rect.id) && isRectangleInside q rect

/-- The third conjunct of the parent-scan condition:
`parent is None or is_rectangle_inside(parent, potential_parent)`. -/
def accInside (acc : Option RectItem) (q : RectItem) : Bool :=
  match acc with
  | none => true
  | some p => isRectangleInside p q

/-- One iteration of the parent scan of `rule_based_approach`. -/
def parentStep (rect : RectItem) (acc : Option RectItem) (q : RectItem) : Option RectItem :=
  if isCand rect q && accInside acc q then some q else acc

/-- The parent scan: fold the step over the (sorted) rectangle list, starting
from `parent = None`. -/
def findParent (rect : RectItem) (rects : List RectItem) : Option RectItem :=
  rects.foldl (parentStep rect) none

/-- Sort key relation for `rectangles.sort(key=area, reverse=True)`:
descending area. -/
def areaGE (a b : RectItem) : Prop := area b ≤ area a

instance : DecidableRel areaGE := fun a b => inferInstanceAs (Decidable (area b ≤ area a))

instance : IsTotal RectItem areaGE := ⟨fun a b => le_total (area b) (area a)⟩

instance : IsTrans RectItem areaGE :=
  ⟨fun _ _ _ h1 h2 => le_trans h2 h1⟩

/-- `rectangles.sort(key=lambda r: r['width'] * r['height'], reverse=True)`
(a stable sort, as in Python). -/
def sortRectsDesc (rects : List RectItem) : List RectItem :=
  List.insertionSort areaGE rects

/-- The sorted rectangle list `rule_based_approach` works on. -/
def sortedRectsOf (data : List Item) : List RectItem :=
  sortRectsDesc (filterRects data)

/-- The output record `rule_based_approach` builds for a rectangle: label from
the first strictly containing text, parent from the scan (key absent when the
scan found none). -/
def ruleRecRecord (texts : List TextItem) (sorted : List RectItem) (rect : RectItem) : RelOut :=
  ⟨rect.id, "rectangle",
    ((firstContainedText rect texts).map TextItem.text).getD "",
    (findParent rect sorted).map RectItem.id, none, none⟩

/-- The output record `rule_based_approach` builds for an arrow, via
`find_nearest_rectangle` on each endpoint (raises when no rectangle exists). -/
def ruleArrowRecord (sorted : List RectItem) (a : ArrowItem) : Option RelOut := do
  let fromRect ← findNearestRectangle a.sx a.sy sorted
  let toRect ← findNearestRectangle a.ex a.ey sorted
  pure ⟨a.id, "arrow", "", none, some fromRect.id, some toRect.id⟩

/-- The rectangle records of `rule_based_approach`, in sorted order. -/
def ruleRecRecords (data : List Item) : List RelOut :=
  (sortedRectsOf data).map
    (fun rect => ruleRecRecord (filterTexts data) (sortedRectsOf data) rect)

/-- `rule_based_approach(data)`: rectangle records first, then arrow
records. -/
def ruleBased (data : List Item) : Option (List RelOut) :=
  match optionMapM (ruleArrowRecord (sortedRectsOf data)) (filterArrows data) with
  | none => none
  | some arrowRecords => some (ruleRecRecords data ++ arrowRecords)

/-- The `Rectangle` class of the quadtree: a node boundary. -/
structure BRect where
  x : ℚ
  y : ℚ
  w : ℚ
  h : ℚ
deriving DecidableEq

/-- `Rectangle.contains(item)`: half-open membership of the anchor point. -/
def BRect.containsPt (b : BRect) (px py : ℚ) : Bool :=
  decide (b.x ≤ px) && decide (px < b.x + b.w) &&
    decide (b.y ≤ py) && decide (py < b.y + b.h)

/-- `Rectangle.intersects(other)`: open-interval overlap of two boundaries. -/
def BRect.intersects (a b : BRect) : Bool :=
  !(decide (a.x + a.w ≤ b.x) || decide (b.x + b.w ≤ a.x) ||
    decide (a.y + a.h ≤ b.y) || decide (b.y + b.h ≤ a.y))

/-- The north-east quadrant built by `subdivide`. -/
def neRect (b : BRect) : BRect := ⟨b.x + b.w / 2, b.y, b.w / 2, b.h / 2⟩

/-- The north-west quadrant built by `subdivide`. -/
def nwRect (b : BRect) : BRect := ⟨b.x, b.y, b.w / 2, b.h / 2⟩

/-- The south-east quadrant built by `subdivide`. -/
def seRect (b : BRect) : BRect := ⟨b.x + b.w / 2, b.y + b.h / 2, b.w / 2, b.h / 2⟩

/-- The south-west quadrant built by `subdivide`. -/
def swRect (b : BRect) : BRect := ⟨b.x, b.y + b.h / 2, b.w / 2, b.h / 2⟩

/-- The item anchor `item['x']` used by the quadtree; arrows have no `'x'`
key and are never inserted, so their value is arbitrary. -/
def itemX : Item → ℚ
  | Item.rect r => r.x
  | Item.text t => t.x
  | Item.arrow _ => 0

/-- The item anchor `item['y']`. -/
def itemY : Item → ℚ
  | Item.rect r => r.y
  | Item.text t => t.y
  | Item.arrow _ => 0

/-- `item['x'] + item.get('width', 0)`. -/
def itemRight : Item → ℚ
  | Item.rect r => r.x + r.width
  | Item.text t => t.x
  | Item.arrow _ => 0

/-- `item['y'] + item.get('height', 0)`. -/
def itemBottom : Item → ℚ
  | Item.rect r => r.y + r.height
  | Item.text t => t.y
  | Item.arrow _ => 0

/-- Whether the item carries `'x'`/`'y'` keys (rectangles and texts do,
arrows do not). -/
def isPositioned : Item → Bool
  | Item.arrow _ => false
  | _ => true

/-- A `QuadTree` node; `node` is a subdivided node (`divided == True`) with
its four children in the order they are tried (`northeast`, `northwest`,
`southeast`, `southwest`). -/
inductive QuadTree where
  | leaf (boundary : BRect) (capacity : Nat) (items : List Item)
  | node (boundary : BRect) (capacity : Nat) (items : List Item)
      (ne nw se sw : QuadTree)
deriving DecidableEq

/-- The boundary of a quadtree node. -/
def QuadTree.boundary : QuadTree → BRect
  | QuadTree.leaf b _ _ => b
  | QuadTree.node b _ _ _ _ _ _ => b

/-- `insert` into a freshly subdivided child: the child is an empty leaf, so
the Python call returns immediately (provided the capacity is positive). -/
def freshLeafInsert (b : BRect) (c : Nat) (i : Item) : QuadTree × Bool :=
  if b.containsPt (itemX i) (itemY i) && decide (0 < c) then
    (QuadTree.leaf b c [i], true)
  else (QuadTree.leaf b c [], false)

/-- `QuadTree.insert(item)` as a total function: mutation is modelled by
returning the updated tree together with the boolean result.  In the
undivided-full case the recursive Python calls land on freshly created empty
leaves and are inlined as `freshLeafInsert`; `insertFuel` below is the
literal recursion and agrees with this function (theorem `c8_insert_terminates`). -/
def insertT : QuadTree → Item → QuadTree × Bool
  | QuadTree.leaf b c its, i =>
    if !(b.containsPt (itemX i) (itemY i)) then (QuadTree.leaf b c its, false)
    else if its.length < c then (QuadTree.leaf b c (its ++ [i]), true)
    else
      let r1 := freshLeafInsert (neRect b) c i
      if r1.2 then (QuadTree.node b c its r1.1 (QuadTree.leaf (nwRect b) c [])
        (QuadTree.leaf (seRect b) c []) (QuadTree.leaf (swRect b) c []), true)
      else
        let r2 := freshLeafInsert (nwRect b) c i
        if r2.2 then (QuadTree.node b c its r1.1 r2.1
          (QuadTree.leaf (seRect b) c []) (QuadTree.leaf (swRect b) c []), true)
        else
          let r3 := freshLeafInsert (seRect b) c i
          if r3.2 then (QuadTree.node b c its r1.1 r2.1 r3.1
            (QuadTree.leaf (swRect b) c []), true)
          else
            let r4 := freshLeafInsert (swRect b) c i
            (QuadTree.node b c its r1.1 r2.1 r3.1 r4.1, r4.2)
  | QuadTree.node b c its ne nw se sw, i =>
    if !(b.containsPt (itemX i) (itemY i)) then
      (QuadTree.node b c its ne nw se sw, false)
    else if its.length < c then (QuadTree.node b c (its ++ [i]) ne nw se sw, true)
    else
      let r1 := insertT ne i
      if r1.2 then (QuadTree.node b c its r1.1 nw se sw, true)
      else
        let r2 := insertT nw i
        if r2.2 then (QuadTree.node b c its r1.1 r2.1 se sw, true)
        else
          let r3 := insertT se i
          if r3.2 then (QuadTree.node b c its r1.1 r2.1 r3.1 sw, true)
          else
            let r4 := insertT sw i
            (QuadTree.node b c its r1.1 r2.1 r3.1 r4.1, r4.2)

/-- The literal recursion of `QuadTree.insert`, with fuel: `none` models a
Python stack that never unwinds.  A fresh subdivision recurses into brand-new
empty leaves exactly as the source does. -/
def insertFuel : Nat → QuadTree → Item → Option (QuadTree × Bool)
  | 0, _, _ => none
  | Nat.succ fuel, QuadTree.leaf b c its, i =>
    if !(b.containsPt (itemX i) (itemY i)) then some (QuadTree.leaf b c its, false)
    else if its.length < c then some (QuadTree.leaf b c (its ++ [i]), true)
    else do
      let r1 ← insertFuel fuel (QuadTree.leaf (neRect b) c []) i
      if r1.2 then pure (QuadTree.node b c its r1.1 (QuadTree.leaf (nwRect b) c [])
        (QuadTree.leaf (seRect b) c []) (QuadTree.leaf (swRect b) c []), true)
      else do
        let r2 ← insertFuel fuel (QuadTree.leaf (nwRect b) c []) i
        if r2.2 then pure (QuadTree.node b c its r1.1 r2.1
          (QuadTree.leaf (seRect b) c []) (QuadTree.leaf (swRect b) c []), true)
        else do
          let r3 ← insertFuel fuel (QuadTree.leaf (seRect b) c []) i
          if r3.2 then pure (QuadTree.node b c its r1.1 r2.1 r3.1
            (QuadTree.leaf (swRect b) c []), true)
          else do
            let r4 ← insertFuel fuel (QuadTree.leaf (swRect b) c []) i
            pure (QuadTree.node b c its r1.1 r2.1 r3.1 r4.1, r4.2)
  | Nat.succ fuel, QuadTree.node b c its ne nw se sw, i =>
    if !(b.containsPt (itemX i) (itemY i)) then
      some (QuadTree.node b c its ne nw se sw, false)
    else if its.length < c then some (QuadTree.node b c (its ++ [i]) ne nw se sw, true)
    else do
      let r1 ← insertFuel fuel ne i
      if r1.2 then pure (QuadTree.node b c its r1.1 nw se sw, true)
      else do
        let r2 ← insertFuel fuel nw i
        if r2.2 then pure (QuadTree.node b c its r1.1 r2.1 se sw, true)
        else do
          let r3 ← insertFuel fuel se i
          if r3.2 then pure (QuadTree.node b c its r1.1 r2.1 r3.1 sw, true)
          else do
            let r4 ← insertFuel fuel sw i
            pure (QuadTree.node b c its r1.1 r2.1 r3.1 r4.1, r4.2)

/-- The depth of a quadtree. -/
def QuadTree.depth : QuadTree → Nat
  | QuadTree.leaf _ _ _ => 0
  | QuadTree.node _ _ _ ne nw se sw =>
    1 + max (max ne.depth nw.depth) (max se.depth sw.depth)

/-- Every node of the tree has positive capacity (the source always uses
capacity 4; a zero capacity makes the Python recursion diverge). -/
def capPos : QuadTree → Bool
  | QuadTree.leaf _ c _ => decide (0 < c)
  | QuadTree.node _ c _ ne nw se sw =>
    decide (0 < c) && capPos ne && capPos nw && capPos se && capPos sw

/-- `QuadTree.query(range)`. -/
def QuadTree.query : QuadTree → BRect → List Item
  | QuadTree.leaf b _ its, range =>
    if !(b.intersects range) then []
    else its.filter (fun i => range.containsPt (itemX i) (itemY i))
  | QuadTree.node b _ its ne nw se sw, range =>
    if !(b.intersects range) then []
    else
      its.filter (fun i => range.containsPt (itemX i) (itemY i)) ++
        ne.query range ++ nw.query range ++ se.query range ++ sw.query range

/-- Python `min` over a list of values. -/
def listMinQ (l : List ℚ) : Option ℚ := minBy (fun v => v) l

/-- Python `max` over a list of values. -/
def listMaxQ (l : List ℚ) : Option ℚ := minBy (fun v => -v) l

/-- The label `quadtree_approach` extracts for a rectangle: the first
text-typed item among the query results. -/
def firstQueryText : List Item → Option String
  | [] => none
  | Item.text t :: _ => some t.text
  | _ :: rest => firstQueryText rest

/-- `quadtree_approach(data)`.  The boolean result of each `qt.insert(item)`
is discarded, exactly as in the source. -/
def quadtreeApproach (data : List Item) : Option (List RelOut) := do
  let pos := data.filter isPositioned
  let minX ← listMinQ (pos.map itemX)
  let minY ← listMinQ (pos.map itemY)
  let maxX ← listMaxQ (pos.map itemRight)
  let maxY ← listMaxQ (pos.map itemBottom)
  let boundary : BRect := ⟨minX, minY, maxX - minX, maxY - minY⟩
  let qt := pos.foldl (fun t i => (insertT t i).1) (QuadTree.leaf boundary 4 [])
  let sorted := sortedRectsOf data
  let recRecords := sorted.map (fun rect =>
    let range : BRect := ⟨rect.x, rect.y, rect.width, rect.height⟩
    (⟨rect.id, "rectangle", (firstQueryText (qt.query range)).getD "",
      (findParent rect sorted).map RectItem.id, none, none⟩ : RelOut))
  let arrowRecords ← optionMapM (ruleArrowRecord sorted) (filterArrows data)
  pure (recRecords ++ arrowRecords)

/-- The parent relation over the output containers of `rule_based_approach`:
`parentRel data i j` holds when some rectangle record with id `i` carries
parent id `j`. -/
def parentRel (data : List Item) (i j : String) : Prop :=
  ∃ rec ∈ (ruleBased data).getD [], rec.rtype = "rectangle" ∧ rec.id = i ∧
    rec.parent = some j

/-- The area of the input rectangle carrying a given id (0 when absent);
used as a strictly decreasing measure along the parent relation. -/
def mId (data : List Item) (s : String) : ℚ :=
  (((filterRects data).find? (fun r => r.id == s)).map area).getD 0

/-! ### Concrete fixtures used by witnesses and counterexamples -/

/-- An outer container. -/
def fixO : RectItem := ⟨"O", 0, 0, 10, 10⟩

/-- A container nested strictly inside `fixO`. -/
def fixI : RectItem := ⟨"I", 2, 2, 4, 4⟩

/-- A text positioned strictly inside both `fixI` and `fixO`. -/
def fixT : TextItem := ⟨"t", 3, 3, "T"⟩

/-- Two nested containers. -/
def fixNestedPair : List Item := [Item.rect fixO, Item.rect fixI]

/-- Two nested containers with one text inside the inner one. -/
def fixNested : List Item := [Item.rect fixO, Item.rect fixI, Item.text fixT]

/-- A large container whose left edge passes through the point (0, 50). -/
def fixA : RectItem := ⟨"A", 0, 0, 100, 100⟩

/-- A small container to the left of `fixA`, not containing (0, 50) but with
the nearest center. -/
def fixB : RectItem := ⟨"B", -10, 45, 8, 10⟩

/-- Two containers and a degenerate connector whose both endpoints lie
exactly on the boundary of `fixA`. -/
def fixArrowData : List Item :=
  [Item.rect fixA, Item.rect fixB, Item.arrow ⟨"ar", 0, 50, 0, 50⟩]

/-- A large container. -/
def fixP : RectItem := ⟨"P", 0, 0, 10, 10⟩

/-- A container overlapping `fixP` without nesting, of smaller area. -/
def fixQ : RectItem := ⟨"Q", -1, 2, 11, 6⟩

/-- A tiny container strictly inside both `fixP` and `fixQ`. -/
def fixC : RectItem := ⟨"c", 3, 4, 1, 1⟩

/-- Overlapping non-nested parents around a small container. -/
def fixOverlap : List Item := [Item.rect fixP, Item.rect fixQ, Item.rect fixC]

/-- A container for the permutation fixtures. -/
def fixR : RectItem := ⟨"R", 0, 0, 10, 10⟩

/-- A first text inside `fixR`. -/
def fixT1 : TextItem := ⟨"t1", 1, 1, "a"⟩

/-- A second text inside `fixR`. -/
def fixT2 : TextItem := ⟨"t2", 2, 2, "b"⟩

/-- A container with two texts, in one order. -/
def fixPermA : List Item := [Item.rect fixR, Item.text fixT1, Item.text fixT2]

/-- The same elements with the two texts swapped. -/
def fixPermB : List Item := [Item.rect fixR, Item.text fixT2, Item.text fixT1]

/-- The same elements as `fixPermA`, permuted across kinds but preserving
the relative order within each kind. -/
def fixPermC : List Item := [Item.text fixT1, Item.rect fixR, Item.text fixT2]

/-- A single positioned element: its bounding box is degenerate, so its own
insertion into the quadtree fails. -/
def fixLoneText : List Item := [Item.text ⟨"t", 5, 5, "hi"⟩]

/-- A text positioned outside both `fixO` and `fixI`. -/
def fixTout : TextItem := ⟨"u", 20, 20, "U"⟩

/-- Nested containers with two texts: the first (in input order) outside
them, the second strictly inside both. -/
def fixMultiText : List Item :=
  [Item.rect fixO, Item.rect fixI, Item.text fixTout, Item.text fixT]

/-- An item whose anchor coincides with four earlier insertions. -/
def coincItem : Item := Item.text ⟨"p", 1, 1, "x"⟩

/-- A quadtree (capacity 1) built by inserting five items with the same
anchor point; its depth is 4. -/
def coincTree : QuadTree :=
  (List.replicate 5 coincItem).foldl (fun t i => (insertT t i).1)
    (QuadTree.leaf ⟨0, 0, 8, 8⟩ 1 [])

/-! ### Helper lemmas -/

theorem minBy_eq_none {α : Type} (f : α → ℚ) :
    ∀ (l : List α), minBy f l = none → l = [] := by
  intro l h
  cases l with
  | nil => rfl
  | cons x xs =>
    simp only [minBy] at h
    cases hxs : minBy f xs with
    | none => rw [hxs] at h; simp at h
    | some m => rw [hxs] at h; by_cases hc : f x ≤ f m <;> simp [hc] at h

theorem minBy_eq_some {α : Type} (f : α → ℚ) :
    ∀ (l : List α) (m : α), minBy f l = some m → m ∈ l ∧ ∀ x ∈ l, f m ≤ f x := by
  intro l
  induction l with
  | nil => intro m h; simp [minBy] at h
  | cons x xs ih =>
    intro m h
    simp only [minBy] at h
    cases hxs : minBy f xs with
    | none =>
      rw [hxs] at h
      cases h
      have hempty : xs = [] := minBy_eq_none f xs hxs
      subst hempty
      constructor
      · exact List.mem_cons_self x []
      · intro y hy
        rcases List.mem_cons.mp hy with h1 | h2
        · rw [h1]
        · simp at h2
    | some m2 =>
      rw [hxs] at h
      obtain ⟨hmem, hle⟩ := ih m2 hxs
      by_cases hc : f x ≤ f m2
      · simp [hc] at h
        subst h
        refine ⟨List.mem_cons_self x xs, ?_⟩
        intro y hy
        rcases List.mem_cons.mp hy with h1 | h2
        · rw [h1]
        · exact le_trans hc (hle y h2)
      · simp [hc] at h
        subst h
        refine ⟨List.mem_cons_of_mem x hmem, ?_⟩
        intro y hy
        rcases List.mem_cons.mp hy with h1 | h2
        · rw [h1]; exact le_of_not_le hc
        · exact hle y h2

theorem minBy_isSome {α : Type} (f : α → ℚ) :
    ∀ (l : List α), l ≠ [] → ∃ m, minBy f l = some m := by
  intro l hne
  cases l with
  | nil => exact absurd rfl hne
  | cons x xs =>
    simp only [minBy]
    cases hxs : minBy f xs with
    | none => exact ⟨x, rfl⟩
    | some m2 =>
      by_cases hc : f x ≤ f m2
      · exact ⟨x, by simp [hc]⟩
      · exact ⟨m2, by simp [hc]⟩

theorem optionMapM_mem {α β : Type} (f : α → Option β) :
    ∀ (l : List α) (ys : List β) (y : β),
      optionMapM f l = some ys → y ∈ ys → ∃ x ∈ l, f x = some y := by
  intro l
  induction l with
  | nil => intro ys y h hy; simp [optionMapM] at h; subst h; simp at hy
  | cons x xs ih =>
    intro ys y h hy
    simp only [optionMapM] at h
    cases hfx : f x with
    | none => rw [hfx] at h; simp at h
    | some y1 =>
      rw [hfx] at h
      cases hxs : optionMapM f xs with
      | none => rw [hxs] at h; simp at h
      | some ys1 =>
        rw [hxs] at h
        simp at h
        subst h
        rcases List.mem_cons.mp hy with h1 | h2
        · exact ⟨x, List.mem_cons_self x xs, h1 ▸ hfx⟩
        · obtain ⟨x2, hx2, hfx2⟩ := ih ys1 y hxs h2
          exact ⟨x2, List.mem_cons_of_mem x hx2, hfx2⟩

theorem optionMapM_isSome {α β : Type} (f : α → Option β) :
    ∀ (l : List α), (∀ x ∈ l, ∃ y, f x = some y) → ∃ ys, optionMapM f l = some ys := by
  intro l
  induction l with
  | nil => intro _; exact ⟨[], rfl⟩
  | cons x xs ih =>
    intro hall
    obtain ⟨y, hy⟩ := hall x (List.mem_cons_self x xs)
    obtain ⟨ys, hys⟩ := ih (fun z hz => hall z (List.mem_cons_of_mem x hz))
    exact ⟨y :: ys, by simp [optionMapM, hy, hys]⟩

theorem firstContainedText_strict (r : RectItem) :
    ∀ (ts : List TextItem) (t : TextItem),
      firstContainedText r ts = some t → t ∈ ts ∧ strictPointInside r t.x t.y = true := by
  intro ts
  induction ts with
  | nil => intro t h; simp [firstContainedText] at h
  | cons u us ih =>
    intro t h
    simp only [firstContainedText] at h
    by_cases hc : strictPointInside r u.x u.y = true
    · simp [hc] at h
      subst h
      exact ⟨List.mem_cons_self u us, hc⟩
    · simp [hc] at h
      obtain ⟨hmem, hstrict⟩ := ih t h
      exact ⟨List.mem_cons_of_mem u hmem, hstrict⟩

theorem firstContainedText_of_split (r : RectItem) :
    ∀ (ts1 : List TextItem) (t : TextItem) (ts2 : List TextItem),
      (∀ u ∈ ts1, strictPointInside r u.x u.y = false) →
      strictPointInside r t.x t.y = true →
      firstContainedText r (ts1 ++ t :: ts2) = some t := by
  intro ts1
  induction ts1 with
  | nil =>
    intro t ts2 _ hin
    simp [firstContainedText, hin]
  | cons u us ih =>
    intro t ts2 hskip hin
    have hu : strictPointInside r u.x u.y = false :=
      hskip u (List.mem_cons_self u us)
    simp only [List.cons_append, firstContainedText, hu, Bool.false_eq_true,
      if_false]
    exact ih t ts2 (fun v hv => hskip v (List.mem_cons_of_mem u hv)) hin

theorem nodup_map_inj {α β : Type} (f : α → β) :
    ∀ (l : List α), (l.map f).Nodup →
      ∀ a ∈ l, ∀ b ∈ l, f a = f b → a = b := by
  intro l
  induction l with
  | nil => intro _ a ha; simp at ha
  | cons x xs ih =>
    intro hnd a ha b hb hfab
    simp only [List.map_cons, List.nodup_cons] at hnd
    obtain ⟨hnotin, hnd2⟩ := hnd
    rcases List.mem_cons.mp ha with h1 | h2 <;> rcases List.mem_cons.mp hb with g1 | g2
    · rw [h1, g1]
    · exfalso; apply hnotin; rw [h1] at hfab; rw [hfab]; exact List.mem_map_of_mem f g2
    · exfalso; apply hnotin; rw [g1] at hfab; rw [← hfab]; exact List.mem_map_of_mem f h2
    · exact ih hnd2 a h2 b g2 hfab

theorem isRectangleInside_iff (o i : RectItem) :
    isRectangleInside o i = true ↔
      (o.x < i.x ∧ o.y < i.y ∧ o.x + o.width > i.x + i.width ∧
        o.y + o.height > i.y + i.height) := by
  simp [isRectangleInside, Bool.and_eq_true, decide_eq_true_eq, and_assoc]

theorem area_lt_of_inside (o i : RectItem) (h : isRectangleInside o i = true)
    (hw : 0 < i.width) (hh : 0 < i.height) : area i < area o := by
  obtain ⟨h1, h2, h3, h4⟩ := (isRectangleInside_iff o i).mp h
  have hwlt : i.width < o.width := by linarith
  have hhlt : i.height < o.height := by linarith
  have := mul_lt_mul hwlt (le_of_lt hhlt) hh (by linarith : (0 : ℚ) ≤ o.width)
  simpa [area] using this

theorem foldl_parentStep_some (rect : RectItem) :
    ∀ (l : List RectItem) (acc : Option RectItem) (q : RectItem),
      l.foldl (parentStep rect) acc = some q →
      acc = some q ∨ (q ∈ l ∧ isCand rect q = true) := by
  intro l
  induction l with
  | nil => intro acc q h; exact Or.inl h
  | cons x xs ih =>
    intro acc q h
    simp only [List.foldl_cons] at h
    rcases ih (parentStep rect acc x) q h with hacc | hmem
    · by_cases hc : (isCand rect x && accInside acc x) = true
      · have hsplit : isCand rect x = true ∧ accInside acc x = true := by
          simpa [Bool.and_eq_true] using hc
        simp only [parentStep, hc, if_true] at hacc
        injection hacc with h2
        right
        exact ⟨h2 ▸ List.mem_cons_self x xs, h2 ▸ hsplit.1⟩
      · simp only [parentStep, hc] at hacc
        simp at hacc
        exact Or.inl hacc
    · exact Or.inr ⟨List.mem_cons_of_mem x hmem.1, hmem.2⟩

theorem scanMin (rect : RectItem) :
    ∀ (L : List RectItem) (acc : Option RectItem),
      List.Sorted areaGE L →
      (∀ x : RectItem, (x ∈ L ∨ acc = some x) → 0 < x.width ∧ 0 < x.height) →
      (∀ p q : RectItem, (p ∈ L ∨ acc = some p) → (q ∈ L ∨ acc = some q) →
        isCand rect p = true → isCand rect q = true → p ≠ q →
        isRectangleInside p q = true ∨ isRectangleInside q p = true) →
      (∀ p : RectItem, acc = some p →
        isCand rect p = true ∧ ∀ q ∈ L, area q ≤ area p) →
      ((L.foldl (parentStep rect) acc = none ↔
        (acc = none ∧ ∀ q ∈ L, isCand rect q = false)) ∧
       (∀ m : RectItem, L.foldl (parentStep rect) acc = some m →
         isCand rect m = true ∧ (m ∈ L ∨ acc = some m) ∧
         (∀ q ∈ L, isCand rect q = true → area m ≤ area q) ∧
         (∀ p : RectItem, acc = some p → area m ≤ area p))) := by
  intro L
  induction L with
  | nil =>
    intro acc _ _ _ hacc
    simp only [List.foldl_nil]
    constructor
    · constructor
      · intro h; exact ⟨h, by intro q hq; simp at hq⟩
      · rintro ⟨h, _⟩; exact h
    · intro m hm
      obtain ⟨hP, _⟩ := hacc m hm
      refine ⟨hP, Or.inr hm, ?_, ?_⟩
      · intro q hq; simp at hq
      · intro p hp
        rw [hm] at hp
        injection hp with h2
        rw [h2]
  | cons x L ih =>
    intro acc hs hpos hchain hacc
    obtain ⟨hx, hsL⟩ := List.sorted_cons.mp hs
    simp only [List.foldl_cons]
    by_cases hcond : (isCand rect x && accInside acc x) = true
    · -- the scan adopts x as the new parent
      have hsplit : isCand rect x = true ∧ accInside acc x = true := by
        simpa [Bool.and_eq_true] using hcond
      have hPx : isCand rect x = true := hsplit.1
      have hstep : parentStep rect acc x = some x := by
        simp only [parentStep]
        rw [if_pos hcond]
      rw [hstep]
      have hpos2 : ∀ y : RectItem, (y ∈ L ∨ some x = some y) →
          0 < y.width ∧ 0 < y.height := by
        intro y hy
        rcases hy with hy | hy
        · exact hpos y (Or.inl (List.mem_cons_of_mem x hy))
        · injection hy with h2
          exact h2 ▸ hpos x (Or.inl (List.mem_cons_self x L))
      have hchain2 : ∀ p q : RectItem, (p ∈ L ∨ some x = some p) →
          (q ∈ L ∨ some x = some q) → isCand rect p = true → isCand rect q = true →
          p ≠ q → isRectangleInside p q = true ∨ isRectangleInside q p = true := by
        intro p q hp hq
        apply hchain p q
        · rcases hp with hp | hp
          · exact Or.inl (List.mem_cons_of_mem x hp)
          · injection hp with h2; exact Or.inl (h2 ▸ List.mem_cons_self x L)
        · rcases hq with hq | hq
          · exact Or.inl (List.mem_cons_of_mem x hq)
          · injection hq with h2; exact Or.inl (h2 ▸ List.mem_cons_self x L)
      have hacc2 : ∀ p : RectItem, some x = some p →
          isCand rect p = true ∧ ∀ q ∈ L, area q ≤ area p := by
        intro p hp
        injection hp with h2
        subst h2
        exact ⟨hPx, fun q hq => hx q hq⟩
      obtain ⟨ihIff, ihSome⟩ := ih (some x) hsL hpos2 hchain2 hacc2
      constructor
      · constructor
        · intro h
          obtain ⟨habs, _⟩ := ihIff.mp h
          simp at habs
        · rintro ⟨_, hall⟩
          have hfalse := hall x (List.mem_cons_self x L)
          rw [hPx] at hfalse
          simp at hfalse
      · intro m hm
        obtain ⟨hPm, hmem, hminL, hminAcc⟩ := ihSome m hm
        have hmx : area m ≤ area x := hminAcc x rfl
        refine ⟨hPm, ?_, ?_, ?_⟩
        · rcases hmem with h1 | h1
          · exact Or.inl (List.mem_cons_of_mem x h1)
          · injection h1 with h2; exact Or.inl (h2 ▸ List.mem_cons_self x L)
        · intro q hq hPq
          rcases List.mem_cons.mp hq with h1 | h1
          · rw [h1]; exact hmx
          · exact hminL q h1 hPq
        · intro p hp
          have hIn : accInside acc x = true := hsplit.2
          rw [hp] at hIn
          have hpx : isRectangleInside p x = true := hIn
          have hposx := hpos x (Or.inl (List.mem_cons_self x L))
          have hlt : area x < area p := area_lt_of_inside p x hpx hposx.1 hposx.2
          linarith
    · -- the scan keeps the old accumulator
      have hstep : parentStep rect acc x = acc := by
        simp only [parentStep]
        rw [if_neg hcond]
      rw [hstep]
      have hpos2 : ∀ y : RectItem, (y ∈ L ∨ acc = some y) →
          0 < y.width ∧ 0 < y.height := by
        intro y hy
        rcases hy with hy | hy
        · exact hpos y (Or.inl (List.mem_cons_of_mem x hy))
        · exact hpos y (Or.inr hy)
      have hchain2 : ∀ p q : RectItem, (p ∈ L ∨ acc = some p) →
          (q ∈ L ∨ acc = some q) → isCand rect p = true → isCand rect q = true →
          p ≠ q → isRectangleInside p q = true ∨ isRectangleInside q p = true := by
        intro p q hp hq
        apply hchain p q
        · rcases hp with hp | hp
          · exact Or.inl (List.mem_cons_of_mem x hp)
          · exact Or.inr hp
        · rcases hq with hq | hq
          · exact Or.inl (List.mem_cons_of_mem x hq)
          · exact Or.inr hq
      have hacc2 : ∀ p : RectItem, acc = some p →
          isCand rect p = true ∧ ∀ q ∈ L, area q ≤ area p := by
        intro p hp
        obtain ⟨h1, h2⟩ := hacc p hp
        exact ⟨h1, fun q hq => h2 q (List.mem_cons_of_mem x hq)⟩
      obtain ⟨ihIff, ihSome⟩ := ih acc hsL hpos2 hchain2 hacc2
      constructor
      · constructor
        · intro h
          obtain ⟨haccnone, hall⟩ := ihIff.mp h
          refine ⟨haccnone, ?_⟩
          intro q hq
          rcases List.mem_cons.mp hq with h1 | h1
          · subst h1
            subst haccnone
            cases hb : isCand rect q with
            | false => rfl
            | true => exact absurd (by simp [hb, accInside]) hcond
          · exact hall q h1
        · rintro ⟨haccnone, hall⟩
          exact ihIff.mpr ⟨haccnone, fun q hq => hall q (List.mem_cons_of_mem x hq)⟩
      · intro m hm
        obtain ⟨hPm, hmem, hminL, hminAcc⟩ := ihSome m hm
        refine ⟨hPm, ?_, ?_, hminAcc⟩
        · rcases hmem with h1 | h1
          · exact Or.inl (List.mem_cons_of_mem x h1)
          · exact Or.inr h1
        · intro q hq hPq
          rcases List.mem_cons.mp hq with h1 | h1
          · subst h1
            cases hacceq : acc with
            | none =>
              exfalso
              apply hcond
              subst hacceq
              simp [hPq, accInside]
            | some p =>
              have hpx : isRectangleInside p q = false := by
                cases hb : isRectangleInside p q with
                | false => rfl
                | true =>
                  exfalso
                  apply hcond
                  rw [hacceq]
                  simp [hPq, accInside, hb]
              obtain ⟨hPp, _⟩ := hacc p hacceq
              have hminp : area m ≤ area p := hminAcc p hacceq
              by_cases hpq : p = q
              · rw [← hpq]; exact hminp
              · rcases hchain p q (Or.inr hacceq)
                  (Or.inl (List.mem_cons_self q L)) hPp hPq hpq with h2 | h2
                · rw [h2] at hpx; simp at hpx
                · have hposp := hpos p (Or.inr hacceq)
                  have hlt : area p < area q := area_lt_of_inside q p h2 hposp.1 hposp.2
                  linarith
          · exact hminL q h1 hPq

theorem findNearestRectangle_isSome (px py : ℚ) (rects : List RectItem)
    (h : rects ≠ []) : ∃ r, findNearestRectangle px py rects = some r := by
  unfold findNearestRectangle
  by_cases hc : (rects.filter (fun r => closedPointInside r px py)).isEmpty
  · simp only [hc, if_true]
    exact minBy_isSome _ rects h
  · simp only [hc, if_false]
    apply minBy_isSome
    intro habs
    rw [habs] at hc
    simp at hc

theorem ruleArrowRecord_isSome (sorted : List RectItem) (a : ArrowItem)
    (h : sorted ≠ []) : ∃ rec1, ruleArrowRecord sorted a = some rec1 := by
  obtain ⟨r1, hr1⟩ := findNearestRectangle_isSome a.sx a.sy sorted h
  obtain ⟨r2, hr2⟩ := findNearestRectangle_isSome a.ex a.ey sorted h
  exact ⟨⟨a.id, "arrow", "", none, some r1.id, some r2.id⟩, by
    simp [ruleArrowRecord, hr1, hr2]⟩

theorem ruleArrowRecord_rtype (sorted : List RectItem) (a : ArrowItem)
    (rec1 : RelOut) (h : ruleArrowRecord sorted a = some rec1) :
    rec1.rtype = "arrow" := by
  simp only [ruleArrowRecord, Option.bind_eq_bind] at h
  cases h1 : findNearestRectangle a.sx a.sy sorted with
  | none => rw [h1] at h; simp at h
  | some r1 =>
    rw [h1] at h
    cases h2 : findNearestRectangle a.ex a.ey sorted with
    | none => rw [h2] at h; simp at h
    | some r2 =>
      rw [h2] at h
      simp at h
      rw [← h]

theorem ruleBased_eq_some (data : List Item) (out : List RelOut)
    (h : ruleBased data = some out) :
    ∃ arrowRecords,
      optionMapM (ruleArrowRecord (sortedRectsOf data)) (filterArrows data) =
        some arrowRecords ∧
      out = ruleRecRecords data ++ arrowRecords := by
  unfold ruleBased at h
  cases hm : optionMapM (ruleArrowRecord (sortedRectsOf data)) (filterArrows data) with
  | none => rw [hm] at h; simp at h
  | some ar =>
    rw [hm] at h
    simp at h
    exact ⟨ar, rfl, h.symm⟩

theorem ruleBased_isSome (data : List Item) (h : filterRects data ≠ []) :
    ruleBased data = some (ruleRecRecords data ++
      (optionMapM (ruleArrowRecord (sortedRectsOf data)) (filterArrows data)).getD []) := by
  have hsorted : sortedRectsOf data ≠ [] := by
    intro habs
    have hperm := List.perm_insertionSort areaGE (filterRects data)
    rw [sortedRectsOf, sortRectsDesc] at habs
    rw [habs] at hperm
    exact h hperm.nil_eq.symm
  obtain ⟨ar, har⟩ := optionMapM_isSome (ruleArrowRecord (sortedRectsOf data))
    (filterArrows data)
    (fun a _ => ruleArrowRecord_isSome (sortedRectsOf data) a hsorted)
  unfold ruleBased
  rw [har]
  simp

theorem mem_sortedRectsOf (data : List Item) (r : RectItem) :
    r ∈ sortedRectsOf data ↔ r ∈ filterRects data := by
  unfold sortedRectsOf sortRectsDesc
  exact (List.perm_insertionSort areaGE (filterRects data)).mem_iff

theorem mem_ruleBased_rect (data : List Item) (out : List RelOut) (rec : RelOut)
    (h : ruleBased data = some out) (hm : rec ∈ out) (hr : rec.rtype = "rectangle") :
    ∃ r ∈ sortedRectsOf data,
      rec = ruleRecRecord (filterTexts data) (sortedRectsOf data) r := by
  obtain ⟨ar, har, hout⟩ := ruleBased_eq_some data out h
  subst hout
  rcases List.mem_append.mp hm with h1 | h1
  · obtain ⟨r, hrmem, hrec⟩ := List.mem_map.mp h1
    exact ⟨r, hrmem, hrec.symm⟩
  · exfalso
    obtain ⟨a, _, hfa⟩ := optionMapM_mem _ (filterArrows data) ar rec har h1
    have := ruleArrowRecord_rtype _ a rec hfa
    rw [hr] at this
    simp at this

theorem freshAgree (f : Nat) (b : BRect) (c : Nat) (i : Item) (hf : 1 ≤ f)
    (hc : 0 < c) :
    insertFuel f (QuadTree.leaf b c []) i = some (freshLeafInsert b c i) := by
  cases f with
  | zero => omega
  | succ g =>
    simp only [insertFuel, freshLeafInsert]
    by_cases hcont : b.containsPt (itemX i) (itemY i) = true
    · simp [hcont, hc]
    · simp at hcont
      simp [hcont]

theorem insertFuel_agree :
    ∀ (t : QuadTree) (i : Item) (fuel : Nat),
      capPos t = true → t.depth + 2 ≤ fuel →
      insertFuel fuel t i = some (insertT t i) := by
  intro t
  induction t with
  | leaf b c its =>
    intro i fuel hcap hfuel
    have hc : 0 < c := by simpa [capPos] using hcap
    cases fuel with
    | zero => simp [QuadTree.depth] at hfuel
    | succ f =>
      have hf : 1 ≤ f := by
        simp only [QuadTree.depth] at hfuel
        omega
      by_cases hcont : b.containsPt (itemX i) (itemY i) = true
      · by_cases hlen : its.length < c
        · simp [insertFuel, insertT, hcont, hlen]
        · simp only [insertFuel, insertT, hcont, Bool.not_true, Bool.false_eq_true,
            if_false, hlen, if_true]
          rw [freshAgree f (neRect b) c i hf hc, freshAgree f (nwRect b) c i hf hc,
            freshAgree f (seRect b) c i hf hc, freshAgree f (swRect b) c i hf hc]
          by_cases h1 : (freshLeafInsert (neRect b) c i).2 = true
          · simp [h1]
          · simp only [Bool.not_eq_true] at h1
            by_cases h2 : (freshLeafInsert (nwRect b) c i).2 = true
            · simp [h1, h2]
            · simp only [Bool.not_eq_true] at h2
              by_cases h3 : (freshLeafInsert (seRect b) c i).2 = true
              · simp [h1, h2, h3]
              · simp only [Bool.not_eq_true] at h3
                simp [h1, h2, h3]
      · simp at hcont
        simp [insertFuel, insertT, hcont]
  | node b c its ne nw se sw ihne ihnw ihse ihsw =>
    intro i fuel hcap hfuel
    have hcaps : capPos ne = true ∧ capPos nw = true ∧ capPos se = true ∧
        capPos sw = true := by
      simp only [capPos, Bool.and_eq_true] at hcap
      exact ⟨hcap.1.1.1.2, hcap.1.1.2, hcap.1.2, hcap.2⟩
    cases fuel with
    | zero => simp [QuadTree.depth] at hfuel
    | succ f =>
      have hm1 : ne.depth ≤ max (max ne.depth nw.depth) (max se.depth sw.depth) :=
        le_trans (Nat.le_max_left _ _) (Nat.le_max_left _ _)
      have hm2 : nw.depth ≤ max (max ne.depth nw.depth) (max se.depth sw.depth) :=
        le_trans (Nat.le_max_right _ _) (Nat.le_max_left _ _)
      have hm3 : se.depth ≤ max (max ne.depth nw.depth) (max se.depth sw.depth) :=
        le_trans (Nat.le_max_left _ _) (Nat.le_max_right _ _)
      have hm4 : sw.depth ≤ max (max ne.depth nw.depth) (max se.depth sw.depth) :=
        le_trans (Nat.le_max_right _ _) (Nat.le_max_right _ _)
      have hfb : 1 + max (max ne.depth nw.depth) (max se.depth sw.depth) + 2 ≤ f + 1 := by
        simpa [QuadTree.depth] using hfuel
      have hne : ne.depth + 2 ≤ f := by omega
      have hnw : nw.depth + 2 ≤ f := by omega
      have hse : se.depth + 2 ≤ f := by omega
      have hsw : sw.depth + 2 ≤ f := by omega
      by_cases hcont : b.containsPt (itemX i) (itemY i) = true
      · by_cases hlen : its.length < c
        · simp [insertFuel, insertT, hcont, hlen]
        · simp only [insertFuel, insertT, hcont, Bool.not_true, Bool.false_eq_true,
            if_false, hlen, if_true]
          rw [ihne i f hcaps.1 hne, ihnw i f hcaps.2.1 hnw, ihse i f hcaps.2.2.1 hse,
            ihsw i f hcaps.2.2.2 hsw]
          by_cases h1 : (insertT ne i).2 = true
          · simp [h1]
          · simp only [Bool.not_eq_true] at h1
            by_cases h2 : (insertT nw i).2 = true
            · simp [h1, h2]
            · simp only [Bool.not_eq_true] at h2
              by_cases h3 : (insertT se i).2 = true
              · simp [h1, h2, h3]
              · simp only [Bool.not_eq_true] at h3
                simp [h1, h2, h3]
      · simp at hcont
        simp [insertFuel, insertT, hcont]


theorem convertArrow_rtype (data : List Item) (a : ArrowItem) (rec1 : RelOut)
    (h : convertArrow data a = some rec1) : rec1.rtype = "arrow" := by
  simp only [convertArrow, Option.bind_eq_bind] at h
  cases h1 : minBy (fun r => dist r a.sx a.sy) (filterRects data) with
  | none => rw [h1] at h; simp at h
  | some r1 =>
    rw [h1] at h
    cases h2 : minBy (fun r => dist r a.ex a.ey) (filterRects data) with
    | none => rw [h2] at h; simp at h
    | some r2 =>
      rw [h2] at h
      simp at h
      rw [← h]

theorem convertAux_parent (data : List Item) :
    ∀ (l : List Item) (out : List RelOut) (rec : RelOut),
      convertAux data l = some out → rec ∈ out → rec.rtype = "rectangle" →
      rec.parent = some "" := by
  intro l
  induction l with
  | nil =>
    intro out rec h hm _
    simp [convertAux] at h
    subst h
    simp at hm
  | cons x rest ih =>
    intro out rec h hm hr
    cases x with
    | rect r =>
      simp only [convertAux, Option.bind_eq_bind] at h
      cases ht : convertAux data rest with
      | none => rw [ht] at h; simp at h
      | some tail =>
        rw [ht] at h
        simp at h
        subst h
        rcases List.mem_cons.mp hm with h1 | h1
        · rw [h1]; rfl
        · exact ih tail rec ht h1 hr
    | text t =>
      simp only [convertAux] at h
      exact ih out rec h hm hr
    | arrow a =>
      simp only [convertAux, Option.bind_eq_bind] at h
      cases ha : convertArrow data a with
      | none => rw [ha] at h; simp at h
      | some rec1 =>
        rw [ha] at h
        cases ht : convertAux data rest with
        | none => rw [ht] at h; simp at h
        | some tail =>
          rw [ht] at h
          simp at h
          subst h
          rcases List.mem_cons.mp hm with h1 | h1
          · exfalso
            have := convertArrow_rtype data a rec1 ha
            rw [← h1, hr] at this
            simp at this
          · exact ih tail rec ht h1 hr

theorem find?_id_unique :
    ∀ (l : List RectItem), (l.map RectItem.id).Nodup →
      ∀ (r : RectItem), r ∈ l → ∀ (s : String), r.id = s →
      l.find? (fun q => q.id == s) = some r := by
  intro l
  induction l with
  | nil => intro _ r hr; simp at hr
  | cons x xs ih =>
    intro hnodup r hr s hs
    simp only [List.map_cons, List.nodup_cons] at hnodup
    obtain ⟨hnotin, hnd⟩ := hnodup
    rcases List.mem_cons.mp hr with h1 | h1
    · subst h1
      subst hs
      simp [List.find?]
    · have hxne : (x.id == s) = false := by
        apply beq_eq_false_iff_ne.mpr
        intro heq
        apply hnotin
        rw [heq, ← hs]
        exact List.mem_map_of_mem RectItem.id h1
      simp only [List.find?, hxne]
      exact ih hnd r h1 s hs

theorem parentRel_spec (data : List Item) (i j : String) (h : parentRel data i j) :
    ∃ rc q : RectItem, rc ∈ filterRects data ∧ q ∈ filterRects data ∧
      rc.id = i ∧ q.id = j ∧ isCand rc q = true := by
  obtain ⟨rec, hrec, hty, hid, hpar⟩ := h
  cases hrb : ruleBased data with
  | none => rw [hrb] at hrec; simp at hrec
  | some out =>
    rw [hrb] at hrec
    simp only [Option.getD_some] at hrec
    obtain ⟨rc, hrcmem, hreceq⟩ := mem_ruleBased_rect data out rec hrb hrec hty
    have hid2 : rc.id = i := by rw [hreceq] at hid; exact hid
    have hpar2 : (findParent rc (sortedRectsOf data)).map RectItem.id = some j := by
      rw [hreceq] at hpar; exact hpar
    obtain ⟨q, hq1, hq2⟩ := Option.map_eq_some'.mp hpar2
    rcases foldl_parentStep_some rc (sortedRectsOf data) none q hq1 with habs | hok
    · simp at habs
    · exact ⟨rc, q, (mem_sortedRectsOf data rc).mp hrcmem,
        (mem_sortedRectsOf data q).mp hok.1, hid2, hq2, hok.2⟩

theorem parentRel_measure (data : List Item)
    (hnodup : ((filterRects data).map RectItem.id).Nodup)
    (hpos : ∀ r ∈ filterRects data, 0 < r.width ∧ 0 < r.height)
    (i j : String) (h : parentRel data i j) : mId data i < mId data j := by
  obtain ⟨rc, q, hrc, hq, hrci, hqj, hcand⟩ := parentRel_spec data i j h
  have h1 : (filterRects data).find? (fun r => r.id == i) = some rc :=
    find?_id_unique (filterRects data) hnodup rc hrc i hrci
  have h2 : (filterRects data).find? (fun r => r.id == j) = some q :=
    find?_id_unique (filterRects data) hnodup q hq j hqj
  unfold mId
  rw [h1, h2]
  simp only [Option.map_some', Option.getD_some]
  have hin : isRectangleInside q rc = true := by
    have := hcand
    simp only [isCand, Bool.and_eq_true] at this
    exact this.2
  exact area_lt_of_inside q rc hin (hpos rc hrc).1 (hpos rc hrc).2

/-! ### Claim theorems -/

/-- C10: for every input, `convert_to_relative` outputs every rectangle
record with its parent field equal to the empty string; it never assigns a
containment hierarchy, regardless of the input geometry. -/
theorem c10_convert_no_hierarchy (data : List Item) (out : List RelOut)
    (rec : RelOut) (h : convertToRelative data = some out) (hm : rec ∈ out)
    (hr : rec.rtype = "rectangle") : rec.parent = some "" :=
  convertAux_parent data data out rec h hm hr

/-- Witness for C10 at a concrete nested input. -/
theorem c10_witness :
    convertToRelative fixNestedPair =
      some [⟨"O", "rectangle", "", some "", none, none⟩,
        ⟨"I", "rectangle", "", some "", none, none⟩] ∧
    (⟨"I", "rectangle", "", some "", none, none⟩ : RelOut) ∈
      [(⟨"O", "rectangle", "", some "", none, none⟩ : RelOut),
        ⟨"I", "rectangle", "", some "", none, none⟩] ∧
    (⟨"I", "rectangle", "", some "", none, none⟩ : RelOut).parent = some "" :=
  ⟨by with_unfolding_all decide, by with_unfolding_all decide,
    c10_convert_no_hierarchy fixNestedPair
      [⟨"O", "rectangle", "", some "", none, none⟩,
        ⟨"I", "rectangle", "", some "", none, none⟩]
      ⟨"I", "rectangle", "", some "", none, none⟩
      (by with_unfolding_all decide) (by with_unfolding_all decide) rfl⟩

/-- C9: `is_rectangle_inside(outer, inner)` is true exactly when all four
strict inequalities hold; consequently a text whose point is selected as a
container label always lies strictly inside the container, so a label
exactly on the container edge never attaches. -/
theorem c9_strict_containment (o i rect : RectItem) (ts : List TextItem)
    (t : TextItem) (h : firstContainedText rect ts = some t) :
    (isRectangleInside o i = true ↔
      (o.x < i.x ∧ o.y < i.y ∧ o.x + o.width > i.x + i.width ∧
        o.y + o.height > i.y + i.height)) ∧
    (rect.x < t.x ∧ t.x < rect.x + rect.width ∧ rect.y < t.y ∧
      t.y < rect.y + rect.height) := by
  constructor
  · exact isRectangleInside_iff o i
  · have hs := (firstContainedText_strict rect ts t h).2
    simpa [strictPointInside, Bool.and_eq_true, decide_eq_true_eq, and_assoc] using hs

/-- Witness for C9 at a concrete container, text list and text. -/
theorem c9_witness :
    firstContainedText fixR [fixT1] = some fixT1 ∧
    ((isRectangleInside fixO fixI = true ↔
      (fixO.x < fixI.x ∧ fixO.y < fixI.y ∧
        fixO.x + fixO.width > fixI.x + fixI.width ∧
        fixO.y + fixO.height > fixI.y + fixI.height)) ∧
    (fixR.x < fixT1.x ∧ fixT1.x < fixR.x + fixR.width ∧ fixR.y < fixT1.y ∧
      fixT1.y < fixR.y + fixR.height)) :=
  ⟨by with_unfolding_all decide,
    c9_strict_containment fixO fixI fixR [fixT1] fixT1 (by with_unfolding_all decide)⟩

/-- C1 is false on the code: on two nested containers, `convert_to_relative`
emits the inner container with `parent = ''` while `rule_based_approach`
emits it with `parent = 'O'`, so the five resolvers do not agree even as
unordered collections keyed by id (the repository test expects them to). -/
theorem c1_divergence :
    ((convertToRelative fixNestedPair).getD []).filter (fun r => r.id == "I") =
      [⟨"I", "rectangle", "", some "", none, none⟩] ∧
    ((ruleBased fixNestedPair).getD []).filter (fun r => r.id == "I") =
      [⟨"I", "rectangle", "", some "O", none, none⟩] ∧
    (⟨"I", "rectangle", "", some "", none, none⟩ : RelOut) ≠
      ⟨"I", "rectangle", "", some "O", none, none⟩ := by
  refine ⟨?_, ?_, ?_⟩ <;> with_unfolding_all decide

/-- C6 is half true, half false on the code: `insert` does return false when
the anchor is outside the root boundary (here the degenerate zero-size
bounding box of a single positioned element), but `quadtree_approach`
ignores the boolean result and completes normally, silently dropping the
element instead of raising an error. -/
theorem c6_insert_result_ignored :
    quadtreeApproach fixLoneText = some [] ∧
    (insertT (QuadTree.leaf ⟨5, 5, 0, 0⟩ 4 []) (Item.text ⟨"t", 5, 5, "hi"⟩)).2 =
      false ∧
    BRect.containsPt ⟨5, 5, 0, 0⟩ 5 5 = false := by
  refine ⟨?_, ?_, ?_⟩ <;> with_unfolding_all decide

/-- C8: `QuadTree.insert` terminates on every tree with positive capacities:
the literal Python recursion, run with fuel `depth + 2`, returns (it never
exhausts the stack) and agrees with the total function `insertT` used by
`quadtree_approach` — including when more than `capacity` items share one
anchor point, which only deepens the tree by one level per insertion. -/
theorem c8_insert_terminates (t : QuadTree) (i : Item)
    (hcap : capPos t = true) :
    insertFuel (t.depth + 2) t i = some (insertT t i) :=
  insertFuel_agree t i (t.depth + 2) hcap (le_refl _)

/-- Witness for C8 on a capacity-1 tree holding five items with the same
anchor point. -/
theorem c8_witness :
    capPos coincTree = true ∧ coincTree.depth = 4 ∧
    insertFuel (coincTree.depth + 2) coincTree coincItem =
      some (insertT coincTree coincItem) :=
  ⟨by with_unfolding_all decide, by with_unfolding_all decide,
    c8_insert_terminates coincTree coincItem (by with_unfolding_all decide)⟩

/-- C2 as amended: `find_nearest_rectangle` treats containment with the
boundary INCLUDED (`<=` on all four sides), not the open interior.  When at
least one rectangle contains the point boundary-inclusively the result is a
minimal-area such rectangle; only when no rectangle contains the point even
on its boundary does the nearest-center fallback apply. -/
theorem c2_amended_nearest (px py : ℚ) (rects : List RectItem)
    (h : rects ≠ []) :
    ∃ r, findNearestRectangle px py rects = some r ∧
      (rects.filter (fun q => closedPointInside q px py) ≠ [] →
        r ∈ rects.filter (fun q => closedPointInside q px py) ∧
        ∀ q ∈ rects.filter (fun q => closedPointInside q px py), area r ≤ area q) ∧
      (rects.filter (fun q => closedPointInside q px py) = [] →
        r ∈ rects ∧ ∀ q ∈ rects, dist r px py ≤ dist q px py) := by
  by_cases hc : (rects.filter (fun q => closedPointInside q px py)).isEmpty = true
  · have hem : rects.filter (fun q => closedPointInside q px py) = [] := by
      simpa [List.isEmpty_iff] using hc
    obtain ⟨m, hm⟩ := minBy_isSome (fun r => dist r px py) rects h
    obtain ⟨hmem, hle⟩ := minBy_eq_some _ rects m hm
    refine ⟨m, ?_, ?_, ?_⟩
    · unfold findNearestRectangle
      simp only [hc, if_true]
      exact hm
    · intro hne; exact absurd hem hne
    · intro _; exact ⟨hmem, hle⟩
  · have hne : rects.filter (fun q => closedPointInside q px py) ≠ [] := by
      intro habs
      rw [habs] at hc
      simp at hc
    obtain ⟨m, hm⟩ := minBy_isSome area (rects.filter (fun q => closedPointInside q px py)) hne
    obtain ⟨hmem, hle⟩ := minBy_eq_some area _ m hm
    refine ⟨m, ?_, ?_, ?_⟩
    · unfold findNearestRectangle
      simp only [hc, if_false]
      exact hm
    · intro _; exact ⟨hmem, hle⟩
    · intro habs; exact absurd habs hne

/-- Witness for C2 as amended, at the boundary point (0, 50) of `fixA`. -/
theorem c2_witness :
    ([fixA, fixB] : List RectItem) ≠ [] ∧
    (∃ r, findNearestRectangle 0 50 [fixA, fixB] = some r ∧
      ([fixA, fixB].filter (fun q => closedPointInside q 0 50) ≠ [] →
        r ∈ [fixA, fixB].filter (fun q => closedPointInside q 0 50) ∧
        ∀ q ∈ [fixA, fixB].filter (fun q => closedPointInside q 0 50),
          area r ≤ area q) ∧
      ([fixA, fixB].filter (fun q => closedPointInside q 0 50) = [] →
        r ∈ [fixA, fixB] ∧ ∀ q ∈ [fixA, fixB], dist r 0 50 ≤ dist q 0 50)) :=
  ⟨by with_unfolding_all decide, c2_amended_nearest 0 50 [fixA, fixB]
    (by with_unfolding_all decide)⟩

/-- C2 as stated is false on the code: the endpoint (0, 50) lies on the
shared left boundary of `fixA` and outside `fixB`, no container strictly
contains it, and the nearest-center container over all containers is `fixB`
— yet the connector resolves to `fixA`, because `find_nearest_rectangle`
counts boundary-inclusive containment rather than falling back to the
center distance. -/
theorem c2_cex :
    (filterRects fixArrowData).filter
      (fun r => strictPointInside r 0 50) = [] ∧
    minBy (fun r => dist r 0 50) (filterRects fixArrowData) = some fixB ∧
    ((ruleBased fixArrowData).getD []).filter (fun r => r.rtype == "arrow") =
      [⟨"ar", "arrow", "", none, some "A", some "A"⟩] ∧
    fixB.id = "B" ∧ ("A" : String) ≠ "B" := by
  refine ⟨?_, ?_, ?_, ?_, ?_⟩ <;> with_unfolding_all decide

/-- C3 as amended: each container independently receives as its label the
text of the first input text (in input order) strictly inside it — if the
texts split as `ts1 ++ t :: ts2` with no member of `ts1` strictly inside the
container and `t` strictly inside it, the container's output record carries
`t.text`.  In particular a label strictly inside nested containers is
carried by every enclosing container for which it is the first strictly
contained text, not only the innermost: label exclusivity is not enforced. -/
theorem c3_amended_label (data : List Item) (rect : RectItem)
    (ts1 : List TextItem) (t : TextItem) (ts2 : List TextItem)
    (hr : rect ∈ filterRects data)
    (ht : filterTexts data = ts1 ++ t :: ts2)
    (hskip : ∀ u ∈ ts1, strictPointInside rect u.x u.y = false)
    (hin : strictPointInside rect t.x t.y = true) :
    ∃ out, ruleBased data = some out ∧
      ∃ rec ∈ out, rec.id = rect.id ∧ rec.label = t.text := by
  have hne : filterRects data ≠ [] := List.ne_nil_of_mem hr
  refine ⟨_, ruleBased_isSome data hne, ?_⟩
  have hsorted : rect ∈ sortedRectsOf data := (mem_sortedRectsOf data rect).mpr hr
  refine ⟨ruleRecRecord (filterTexts data) (sortedRectsOf data) rect, ?_, rfl, ?_⟩
  · apply List.mem_append_left
    unfold ruleRecRecords
    exact List.mem_map_of_mem _ hsorted
  · simp only [ruleRecRecord]
    rw [ht, firstContainedText_of_split rect ts1 t ts2 hskip hin]
    rfl

/-- Witness for C3 as amended on a two-text input: the first text in input
order is outside the outer container `fixO`, the second is strictly inside
both nested containers, and the outer (non-innermost) container carries it. -/
theorem c3_witness :
    fixO ∈ filterRects fixMultiText ∧
    filterTexts fixMultiText = [fixTout] ++ fixT :: [] ∧
    (∀ u ∈ [fixTout], strictPointInside fixO u.x u.y = false) ∧
    strictPointInside fixO fixT.x fixT.y = true ∧
    (∃ out, ruleBased fixMultiText = some out ∧
      ∃ rec ∈ out, rec.id = fixO.id ∧ rec.label = fixT.text) :=
  ⟨by with_unfolding_all decide, by with_unfolding_all decide,
    by with_unfolding_all decide, by with_unfolding_all decide,
    c3_amended_label fixMultiText fixO [fixTout] fixT []
      (by with_unfolding_all decide) (by with_unfolding_all decide)
      (by with_unfolding_all decide) (by with_unfolding_all decide)⟩

/-- C3 as stated is false on the code: the text point (3, 3) lies strictly
inside both nested containers `fixO` and `fixI`, yet BOTH output records
carry the label "T" — the outer container is not excluded, and two
containers carry the same label text. -/
theorem c3_cex :
    (((ruleBased fixNested).getD []).filter (fun r => r.label == "T")).map
      RelOut.id = ["O", "I"] ∧
    isRectangleInside fixO fixI = true ∧
    strictPointInside fixI fixT.x fixT.y = true ∧
    strictPointInside fixO fixT.x fixT.y = true ∧
    area fixI < area fixO := by
  refine ⟨?_, ?_, ?_, ?_, ?_⟩ <;> with_unfolding_all decide

/-- C7 as amended: `rule_based_approach` is invariant under permutations
that preserve the relative order of each kind (rectangles, texts, arrows);
arbitrary permutations can change the output. -/
theorem c7_amended_perm (d1 d2 : List Item)
    (h1 : filterRects d1 = filterRects d2)
    (h2 : filterTexts d1 = filterTexts d2)
    (h3 : filterArrows d1 = filterArrows d2) :
    ruleBased d1 = ruleBased d2 := by
  unfold ruleBased ruleRecRecords sortedRectsOf
  rw [h1, h2, h3]

/-- Witness for C7 as amended: moving the container past the first text
(preserving each kind's relative order) leaves the output unchanged. -/
theorem c7_witness :
    filterRects fixPermA = filterRects fixPermC ∧
    filterTexts fixPermA = filterTexts fixPermC ∧
    filterArrows fixPermA = filterArrows fixPermC ∧
    ruleBased fixPermA = ruleBased fixPermC :=
  ⟨by with_unfolding_all decide, by with_unfolding_all decide,
    by with_unfolding_all decide,
    c7_amended_perm fixPermA fixPermC (by with_unfolding_all decide)
      (by with_unfolding_all decide) (by with_unfolding_all decide)⟩

/-- C7 as stated is false on the code: swapping the two texts of the input
(a permutation) changes which text becomes the container label, so the
outputs differ even as unordered collections keyed by id. -/
theorem c7_cex :
    List.Perm fixPermA fixPermB ∧
    ((ruleBased fixPermA).getD []).map RelOut.label = ["a"] ∧
    ((ruleBased fixPermB).getD []).map RelOut.label = ["b"] ∧
    ((ruleBased fixPermA).getD []).map RelOut.id = ["R"] ∧
    ((ruleBased fixPermB).getD []).map RelOut.id = ["R"] := by
  refine ⟨?_, ?_, ?_, ?_, ?_⟩ <;> with_unfolding_all decide

/-- C4 as amended: the scan always assigns either no parent (exactly when no
other container strictly contains `c`) or a strictly containing container;
and when the strictly containing candidates are pairwise nested (no
overlapping non-nested candidates, the situation the spec declares out of
scope), the assigned parent is the minimum-area candidate. -/
theorem c4_amended_parent (data : List Item) (rect : RectItem)
    (hr : rect ∈ filterRects data)
    (hpos : ∀ r ∈ filterRects data, 0 < r.width ∧ 0 < r.height)
    (hchain : ∀ p ∈ (filterRects data).filter (isCand rect),
      ∀ q ∈ (filterRects data).filter (isCand rect), p ≠ q →
      isRectangleInside p q = true ∨ isRectangleInside q p = true) :
    (findParent rect (sortedRectsOf data) = none ↔
      (filterRects data).filter (isCand rect) = []) ∧
    (∀ p, findParent rect (sortedRectsOf data) = some p →
      p ∈ (filterRects data).filter (isCand rect) ∧
      ∀ q ∈ (filterRects data).filter (isCand rect), area p ≤ area q) ∧
    (∃ rec ∈ (ruleBased data).getD [], rec.id = rect.id ∧
      rec.parent = (findParent rect (sortedRectsOf data)).map RectItem.id) := by
  have hperm : List.Perm (sortedRectsOf data) (filterRects data) := by
    unfold sortedRectsOf sortRectsDesc
    exact List.perm_insertionSort areaGE (filterRects data)
  have hs : List.Sorted areaGE (sortedRectsOf data) := by
    unfold sortedRectsOf sortRectsDesc
    exact List.sorted_insertionSort areaGE (filterRects data)
  have hmem : ∀ x : RectItem, x ∈ sortedRectsOf data ↔ x ∈ filterRects data :=
    fun x => hperm.mem_iff
  have hpos2 : ∀ x : RectItem,
      (x ∈ sortedRectsOf data ∨ (none : Option RectItem) = some x) →
      0 < x.width ∧ 0 < x.height := by
    intro x hx
    rcases hx with hx | hx
    · exact hpos x ((hmem x).mp hx)
    · simp at hx
  have hchain2 : ∀ p q : RectItem,
      (p ∈ sortedRectsOf data ∨ (none : Option RectItem) = some p) →
      (q ∈ sortedRectsOf data ∨ (none : Option RectItem) = some q) →
      isCand rect p = true → isCand rect q = true → p ≠ q →
      isRectangleInside p q = true ∨ isRectangleInside q p = true := by
    intro p q hp hq hcp hcq hne
    rcases hp with hp | hp
    · rcases hq with hq | hq
      · exact hchain p (List.mem_filter.mpr ⟨(hmem p).mp hp, hcp⟩) q
          (List.mem_filter.mpr ⟨(hmem q).mp hq, hcq⟩) hne
      · simp at hq
    · simp at hp
  have hacc0 : ∀ p : RectItem, (none : Option RectItem) = some p →
      isCand rect p = true ∧ ∀ q ∈ sortedRectsOf data, area q ≤ area p := by
    intro p hp
    simp at hp
  obtain ⟨hIff, hSome⟩ := scanMin rect (sortedRectsOf data) none hs hpos2 hchain2 hacc0
  refine ⟨?_, ?_, ?_⟩
  · unfold findParent
    rw [hIff]
    constructor
    · rintro ⟨_, hall⟩
      rw [List.filter_eq_nil_iff]
      intro a ha
      have := hall a ((hmem a).mpr ha)
      simp [this]
    · intro hq
      refine ⟨rfl, ?_⟩
      intro q hqmem
      by_cases hc : isCand rect q = true
      · exfalso
        have hin : q ∈ (filterRects data).filter (isCand rect) :=
          List.mem_filter.mpr ⟨(hmem q).mp hqmem, hc⟩
        rw [hq] at hin
        simp at hin
      · cases hb : isCand rect q with
        | false => rfl
        | true => exact absurd hb hc
  · intro p hp
    unfold findParent at hp
    obtain ⟨hPp, hpmem, hminL, _⟩ := hSome p hp
    have hpm : p ∈ sortedRectsOf data := by
      rcases hpmem with h | h
      · exact h
      · simp at h
    constructor
    · exact List.mem_filter.mpr ⟨(hmem p).mp hpm, hPp⟩
    · intro q hq
      obtain ⟨hq1, hq2⟩ := List.mem_filter.mp hq
      exact hminL q ((hmem q).mpr hq1) hq2
  · have hne : filterRects data ≠ [] := List.ne_nil_of_mem hr
    rw [ruleBased_isSome data hne]
    simp only [Option.getD_some]
    refine ⟨ruleRecRecord (filterTexts data) (sortedRectsOf data) rect, ?_, rfl, rfl⟩
    apply List.mem_append_left
    unfold ruleRecRecords
    exact List.mem_map_of_mem _ ((hmem rect).mpr hr)

/-- Witness for C4 as amended on the nested fixture: the only candidate for
`fixI` is `fixO`, and the resolver assigns it. -/
theorem c4_witness :
    fixI ∈ filterRects fixNestedPair ∧
    (∀ r ∈ filterRects fixNestedPair, 0 < r.width ∧ 0 < r.height) ∧
    ((findParent fixI (sortedRectsOf fixNestedPair) = none ↔
      (filterRects fixNestedPair).filter (isCand fixI) = []) ∧
    (∀ p, findParent fixI (sortedRectsOf fixNestedPair) = some p →
      p ∈ (filterRects fixNestedPair).filter (isCand fixI) ∧
      ∀ q ∈ (filterRects fixNestedPair).filter (isCand fixI), area p ≤ area q) ∧
    (∃ rec ∈ (ruleBased fixNestedPair).getD [], rec.id = fixI.id ∧
      rec.parent = (findParent fixI (sortedRectsOf fixNestedPair)).map RectItem.id)) :=
  ⟨by with_unfolding_all decide, by with_unfolding_all decide,
    c4_amended_parent fixNestedPair fixI (by with_unfolding_all decide)
      (by with_unfolding_all decide) (by with_unfolding_all decide)⟩

/-- C4 as stated is false on the code: `fixQ` strictly contains `fixC` and
has strictly smaller area than `fixP`, yet the scan assigns `fixP` as the
parent of `fixC`, because `fixQ` is not nested inside the already-chosen
`fixP` (the two candidates overlap without nesting). -/
theorem c4_cex :
    ((ruleBased fixOverlap).getD []).filter (fun r => r.id == "c") =
      [⟨"c", "rectangle", "", some "P", none, none⟩] ∧
    isCand fixC fixQ = true ∧
    isCand fixC fixP = true ∧
    area fixQ < area fixP := by
  refine ⟨?_, ?_, ?_, ?_⟩ <;> with_unfolding_all decide

/-- C5: for every input with unique container ids and positive dimensions,
the parent relation over the output containers of `rule_based_approach` is a
forest: each container record determines at most one parent, and the
relation has no cycle (its transitive closure is irreflexive), because a
parent strictly contains its child and therefore has strictly larger area. -/
theorem c5_forest (data : List Item)
    (hnodup : ((filterRects data).map RectItem.id).Nodup)
    (hpos : ∀ r ∈ filterRects data, 0 < r.width ∧ 0 < r.height) :
    (∀ i j j' : String, parentRel data i j → parentRel data i j' → j = j') ∧
    (∀ i : String, ¬ Relation.TransGen (parentRel data) i i) := by
  constructor
  · intro i j j' h1 h2
    obtain ⟨rec1, hrec1, hty1, hid1, hpar1⟩ := h1
    obtain ⟨rec2, hrec2, hty2, hid2, hpar2⟩ := h2
    cases hrb : ruleBased data with
    | none =>
      rw [hrb] at hrec1
      simp at hrec1
    | some out =>
      rw [hrb] at hrec1 hrec2
      simp only [Option.getD_some] at hrec1 hrec2
      obtain ⟨r1, hr1mem, heq1⟩ := mem_ruleBased_rect data out rec1 hrb hrec1 hty1
      obtain ⟨r2, hr2mem, heq2⟩ := mem_ruleBased_rect data out rec2 hrb hrec2 hty2
      have hperm : List.Perm (sortedRectsOf data) (filterRects data) := by
        unfold sortedRectsOf sortRectsDesc
        exact List.perm_insertionSort areaGE (filterRects data)
      have hnodup2 : ((sortedRectsOf data).map RectItem.id).Nodup :=
        ((hperm.map RectItem.id).nodup_iff).mpr hnodup
      have hid3 : r1.id = r2.id := by
        have e1 : rec1.id = r1.id := by rw [heq1]; rfl
        have e2 : rec2.id = r2.id := by rw [heq2]; rfl
        rw [← e1, ← e2, hid1, hid2]
      have hr12 : r1 = r2 :=
        nodup_map_inj RectItem.id (sortedRectsOf data) hnodup2 r1 hr1mem r2 hr2mem hid3
      have : rec1.parent = rec2.parent := by
        rw [heq1, heq2, hr12]
      rw [hpar1, hpar2] at this
      injection this
  · intro i hTG
    have key : ∀ a b : String, Relation.TransGen (parentRel data) a b →
        mId data a < mId data b := by
      intro a b h
      induction h with
      | single h1 => exact parentRel_measure data hnodup hpos _ _ h1
      | tail _ h2 ih => exact lt_trans ih (parentRel_measure data hnodup hpos _ _ h2)
    exact absurd (key i i hTG) (lt_irrefl _)

/-- Witness for C5 on the nested fixture. -/
theorem c5_witness :
    ((filterRects fixNested).map RectItem.id).Nodup ∧
    (∀ r ∈ filterRects fixNested, 0 < r.width ∧ 0 < r.height) ∧
    ((∀ i j j' : String, parentRel fixNested i j → parentRel fixNested i j' → j = j') ∧
    (∀ i : String, ¬ Relation.TransGen (parentRel fixNested) i i)) :=
  ⟨by with_unfolding_all decide, by with_unfolding_all decide,
    c5_forest fixNested (by with_unfolding_all decide) (by with_unfolding_all decide)⟩
